import Mathlib

/-!
Verification development for the carlatest repository.

Shallow embedding of:
* `fill_ts_repository` (src/utils/utils.py): the bounded-memory fill pass
  that populates one or two representation repositories from a loader of
  batches and an encoder, optionally building and persisting an auxiliary
  contrastive dataset.
* `find_anomaly_sequences` (src/convert_to_msl_format.py): extraction of
  contiguous anomaly runs from a 0/1 label sequence.
* the per-sequence label-shifting loop of `create_predictive_labels`
  (src/predictive_fault_detection.py).

Tensors are modelled as Lean lists; a batch of samples is a list of samples
of an abstract sample type; the encoder is an abstract function from samples
to embeddings (the source runs it under `torch.no_grad()` in `eval()` mode,
so it is a pure map on the batch).  Device/host transfers (`.to(device)`,
`.cpu()`), progress printing, and `torch.cuda.empty_cache()` calls carry no
data-flow content and are not represented.
-/

/-- A batch yielded by the loader: original samples, their integer targets,
and the weak/strong augmented variants (`ts_w_augment`, `ts_ss_augment`).
Mirrors the dict fields read by `fill_ts_repository`. -/
structure TSBatch (σ : Type) where
  ts_org : List σ
  target : List Int
  ts_w_augment : List σ
  ts_ss_augment : List σ
deriving DecidableEq

/-- Modelled from the spec: the Representation Repository collaborator is not
under src/ (only its callers are).  Per the spec it is "logically an array of
(embedding, label) slots indexed by insertion order; `reset()` empties it;
`resize(k)` changes its per-sample slot multiplicity; `update(embeddings,
labels)` appends a batch, in order, monotonically advancing an internal write
cursor". -/
structure TSRepository (ε : Type) where
  entries : List (ε × Int)
  multiplicity : Nat
deriving DecidableEq

def TSRepository.reset (r : TSRepository ε) : TSRepository ε :=
  { r with entries := [] }

def TSRepository.resize (r : TSRepository ε) (k : Nat) : TSRepository ε :=
  { r with multiplicity := k }

def TSRepository.update (r : TSRepository ε) (embs : List ε) (labels : List Int) :
    TSRepository ε :=
  { r with entries := r.entries ++ embs.zip labels }

/-- Modelled from the spec: `SaveAugmentedDataset` (data/ra_dataset.py) is not
under src/.  Per the spec it is "an immutable pair of (full data tensor, full
label tensor)" exposing index-based access with length equal to the total
accumulated samples. -/
structure SaveAugmentedDataset (σ : Type) where
  data : List σ
  targets : List Int
deriving DecidableEq

def SaveAugmentedDataset.len (d : SaveAugmentedDataset σ) : Nat :=
  d.data.length

/-- The `torch.utils.data.DataLoader` built over the auxiliary dataset, kept
as a record of the dataset and the configuration flags the source passes. -/
structure ConLoader (σ : Type) where
  dataset : SaveAugmentedDataset σ
  num_workers : Nat
  batch_size : Nat
  pin_memory : Bool
  drop_last : Bool
  shuffle : Bool
deriving DecidableEq

/-- The fields of the configuration dict `p` that `fill_ts_repository`
reads. -/
structure FillParams where
  num_workers : Nat
  batch_size : Nat
  contrastive_dataset : String
deriving DecidableEq

/-- Mutable state threaded through the fill loop: the primary repository, the
optional secondary repository, and the two CPU-side accumulation lists
(`con_data`, `con_target`), each a list of per-append chunks. -/
structure FillState (σ ε : Type) where
  repo : TSRepository ε
  repoAug : Option (TSRepository ε)
  con_data : List (List σ)
  con_target : List (List Int)
deriving DecidableEq

/-- `if ts_repository_aug != None: ts_repository_aug.update(...)`. -/
def updateAug (o : Option (TSRepository ε)) (embs : List ε) (labels : List Int) :
    Option (TSRepository ε) :=
  o.map (fun r => r.update embs labels)

/-- One iteration of the `for i, batch in enumerate(loader)` body of
`fill_ts_repository` (src/utils/utils.py lines 70-120).  The encoder output
`model(ts_org.reshape(b, h, w))` is one embedding per sample, i.e. a map of
`encode` over the batch; the reshape is shape bookkeeping with no effect on
the per-sample data flow. -/
def processBatch (encode : σ → ε) (real_aug : Bool) (s : FillState σ ε)
    (b : TSBatch σ) : FillState σ ε :=
  let output := b.ts_org.map encode
  let s := { s with repo := s.repo.update output b.target,
                    repoAug := updateAug s.repoAug output b.target }
  if real_aug then
    let s := { s with con_data := s.con_data ++ [b.ts_org],
                      con_target := s.con_target ++ [b.target] }
    let wTargets : List Int := List.replicate b.ts_w_augment.length 2
    let wOutput := b.ts_w_augment.map encode
    let s := { s with repo := s.repo.update wOutput wTargets,
                      con_data := s.con_data ++ [b.ts_w_augment],
                      con_target := s.con_target ++ [wTargets] }
    let ssTargets : List Int := List.replicate b.ts_ss_augment.length 4
    let ssOutput := b.ts_ss_augment.map encode
    { s with repo := s.repo.update ssOutput ssTargets,
             repoAug := updateAug s.repoAug ssOutput ssTargets,
             con_data := s.con_data ++ [b.ts_ss_augment],
             con_target := s.con_target ++ [ssTargets] }
  else s

/-- The state entering the loop: primary repository reset (and resized to
multiplicity 3 when `real_aug`), secondary repository reset when present,
accumulation lists empty (src/utils/utils.py lines 60-68). -/
def fillStart (repo : TSRepository ε) (real_aug : Bool)
    (repoAug : Option (TSRepository ε)) : FillState σ ε :=
  let r := repo.reset
  let r := if real_aug then r.resize 3 else r
  { repo := r, repoAug := repoAug.map TSRepository.reset,
    con_data := [], con_target := [] }

/-- The whole batch loop of `fill_ts_repository`: state after processing every
batch of the loader in order.  The repositories are mutated in place in the
source, so this state is what the caller observes in them after the loop,
whether or not the post-loop concatenation step succeeds. -/
def fillLoop (loader : List (TSBatch σ)) (encode : σ → ε)
    (repo : TSRepository ε) (real_aug : Bool)
    (repoAug : Option (TSRepository ε)) : FillState σ ε :=
  loader.foldl (processBatch encode real_aug) (fillStart repo real_aug repoAug)

/-- Error raised by the PyTorch runtime when `torch.cat` is given an empty
list of tensors. -/
inductive TorchError where
  | catEmptyList
deriving DecidableEq

/-- `torch.cat(chunks, dim=0)` on a list of same-shape tensors: concatenation
along the sample axis; raises on an empty list of tensors (PyTorch requires a
non-empty input list). -/
def torchCat : List (List α) → Except TorchError (List α)
  | [] => .error .catEmptyList
  | c :: cs => .ok ((c :: cs).flatten)

/-- `fill_ts_repository(p, loader, model, ts_repository, real_aug,
ts_repository_aug)` (src/utils/utils.py lines 58-139).  Returns the final
loop state together with the persisted artifact: `torch.save(con_loader,
p['contrastive_dataset'])` is modelled as returning the pair of the target
path and the saved loader.  When `real_aug` is false nothing is persisted. -/
def fill_ts_repository (p : FillParams) (loader : List (TSBatch σ))
    (encode : σ → ε) (repo : TSRepository ε) (real_aug : Bool)
    (repoAug : Option (TSRepository ε)) :
    Except TorchError (FillState σ ε × Option (String × ConLoader σ)) := do
  let s := fillLoop loader encode repo real_aug repoAug
  if real_aug then
    let con_data_tensor ← torchCat s.con_data
    let con_target_tensor ← torchCat s.con_target
    let con_dataset : SaveAugmentedDataset σ :=
      { data := con_data_tensor, targets := con_target_tensor }
    let con_loader : ConLoader σ :=
      { dataset := con_dataset, num_workers := p.num_workers,
        batch_size := p.batch_size, pin_memory := false,
        drop_last := false, shuffle := false }
    return (s, some (p.contrastive_dataset, con_loader))
  else
    return (s, none)

/-- Batch-wise encoder invocation for the fallible-operation model: the
encoder may raise, as any tensor operation in the source loop may; the first
failure aborts the batch. -/
def encodeBatchE (encodeE : σ → Except η ε) (xs : List σ) : Except η (List ε) :=
  xs.mapM encodeE

/-- One loop iteration under the fallible-operation model.  Operations run in
source order; at the first raising operation the iteration stops, returning
the state written so far and the error.  Nothing is rolled back. -/
def processBatchE (encodeE : σ → Except η ε) (real_aug : Bool)
    (s : FillState σ ε) (b : TSBatch σ) : FillState σ ε × Option η :=
  match encodeBatchE encodeE b.ts_org with
  | .error e => (s, some e)
  | .ok output =>
    let s := { s with repo := s.repo.update output b.target,
                      repoAug := updateAug s.repoAug output b.target }
    if real_aug then
      let s := { s with con_data := s.con_data ++ [b.ts_org],
                        con_target := s.con_target ++ [b.target] }
      match encodeBatchE encodeE b.ts_w_augment with
      | .error e => (s, some e)
      | .ok wOutput =>
        let wTargets : List Int := List.replicate b.ts_w_augment.length 2
        let s := { s with repo := s.repo.update wOutput wTargets,
                          con_data := s.con_data ++ [b.ts_w_augment],
                          con_target := s.con_target ++ [wTargets] }
        match encodeBatchE encodeE b.ts_ss_augment with
        | .error e => (s, some e)
        | .ok ssOutput =>
          let ssTargets : List Int := List.replicate b.ts_ss_augment.length 4
          ({ s with repo := s.repo.update ssOutput ssTargets,
                    repoAug := updateAug s.repoAug ssOutput ssTargets,
                    con_data := s.con_data ++ [b.ts_ss_augment],
                    con_target := s.con_target ++ [ssTargets] }, none)
    else (s, none)

/-- The batch loop under the fallible-operation model: batches run in order
until the first error; the error propagates uncaught, and the state reached
so far (the in-place repository content) is returned alongside it. -/
def loopBatchesE (encodeE : σ → Except η ε) (real_aug : Bool) :
    FillState σ ε → List (TSBatch σ) → FillState σ ε × Option η
  | s, [] => (s, none)
  | s, b :: rest =>
    match processBatchE encodeE real_aug s b with
    | (s', none) => loopBatchesE encodeE real_aug s' rest
    | (s', some e) => (s', some e)

/-- `fill_ts_repository`'s loop under the fallible-operation model, from the
reset initial state. -/
def fillLoopE (loader : List (TSBatch σ)) (encodeE : σ → Except η ε)
    (repo : TSRepository ε) (real_aug : Bool)
    (repoAug : Option (TSRepository ε)) : FillState σ ε × Option η :=
  loopBatchesE encodeE real_aug (fillStart repo real_aug repoAug) loader

/-- The (embedding, label) entries that one batch contributes to the primary
repository. -/
def perBatchEntries (encode : σ → ε) (real_aug : Bool) (b : TSBatch σ) :
    List (ε × Int) :=
  (b.ts_org.map encode).zip b.target
    ++ if real_aug then
        (b.ts_w_augment.map encode).zip (List.replicate b.ts_w_augment.length 2)
          ++ (b.ts_ss_augment.map encode).zip
              (List.replicate b.ts_ss_augment.length 4)
      else []

/-- The (embedding, label) entries that one batch contributes to the secondary
repository: original samples always, strong-augmented samples when `real_aug`,
weak-augmented samples never. -/
def perBatchAugEntries (encode : σ → ε) (real_aug : Bool) (b : TSBatch σ) :
    List (ε × Int) :=
  (b.ts_org.map encode).zip b.target
    ++ if real_aug then
        (b.ts_ss_augment.map encode).zip
          (List.replicate b.ts_ss_augment.length 4)
      else []

/-- The chunks one batch appends to `con_data`. -/
def perBatchConData (real_aug : Bool) (b : TSBatch σ) : List (List σ) :=
  if real_aug then [b.ts_org, b.ts_w_augment, b.ts_ss_augment] else []

/-- The chunks one batch appends to `con_target`. -/
def perBatchConTarget (real_aug : Bool) (b : TSBatch σ) : List (List Int) :=
  if real_aug then
    [b.target, List.replicate b.ts_w_augment.length 2,
      List.replicate b.ts_ss_augment.length 4]
  else []

/-- Total number of original samples across the loader's batches. -/
def totalSamples (loader : List (TSBatch σ)) : Nat :=
  (loader.map (fun b => b.ts_org.length)).sum

/-- State of the `find_anomaly_sequences` scan: accumulated `[start, end]`
pairs, the `in_anomaly` flag, and the pending `start_idx`. -/
structure FAState where
  anomalies : List (Nat × Nat)
  in_anomaly : Bool
  start_idx : Nat
deriving DecidableEq

/-- The `for i, label in enumerate(labels)` loop of `find_anomaly_sequences`
(src/convert_to_msl_format.py lines 20-28), as a recursion on the remaining
labels carrying the running index `i`. -/
def faGo (anomalies : List (Nat × Nat)) (in_anomaly : Bool) (start_idx : Nat)
    (i : Nat) : List Int → FAState
  | [] => ⟨anomalies, in_anomaly, start_idx⟩
  | label :: rest =>
    if label = 1 ∧ in_anomaly = false then
      faGo anomalies true i (i + 1) rest
    else if label = 0 ∧ in_anomaly = true then
      faGo (anomalies ++ [(start_idx, i - 1)]) false start_idx (i + 1) rest
    else
      faGo anomalies in_anomaly start_idx (i + 1) rest

/-- Closing step after the scan: a run still open at the end of the data is
closed at index `len(labels) - 1` (src/convert_to_msl_format.py lines 31-32),
with `n` the total length. -/
def faClose (s : FAState) (n : Nat) : List (Nat × Nat) :=
  if s.in_anomaly then s.anomalies ++ [(s.start_idx, n - 1)] else s.anomalies

/-- `find_anomaly_sequences(labels)` (src/convert_to_msl_format.py lines
11-34): the maximal contiguous regions of label 1, as inclusive
`[start, end]` pairs. -/
def find_anomaly_sequences (labels : List Int) : List (Nat × Nat) :=
  faClose (faGo [] false 0 0 labels) labels.length

/-- Index `m` is covered by one of the inclusive `[start, end]` pairs. -/
def covered (out : List (Nat × Nat)) (m : Nat) : Prop :=
  ∃ p ∈ out, p.1 ≤ m ∧ m ≤ p.2

instance (out : List (Nat × Nat)) (m : Nat) : Decidable (covered out m) :=
  List.decidableBEx _ out

/-- The scan's closed output when started at index `i` in state
`(in_anomaly, start_idx)` over the remaining labels `rest`. -/
def faOut (in_anomaly : Bool) (start_idx i : Nat) (rest : List Int) :
    List (Nat × Nat) :=
  faClose (faGo [] in_anomaly start_idx i rest) (i + rest.length)

/-- The per-sequence body of the `for seq in sequences` loop of
`create_predictive_labels` (src/predictive_fault_detection.py lines 44-54):
shift each `[start, end]` back by the prediction horizon, clamping at 0, and
keep the result only if `new_end > 0 and new_start < num_values`. -/
def create_predictive_labels (prediction_horizon num_values : Int)
    (sequences : List (Int × Int)) : List (Int × Int) :=
  sequences.foldl
    (fun acc seq =>
      let new_start := max 0 (seq.1 - prediction_horizon)
      let new_end := max 0 (seq.2 - prediction_horizon)
      if new_end > 0 ∧ new_start < num_values then acc ++ [(new_start, new_end)]
      else acc)
    []

/-- Placeholder path value for concrete instantiations. -/
def defaultSavePath : String := ""

/-- Concrete configuration used in concrete instantiations. -/
def exParams : FillParams := ⟨0, 1, defaultSavePath⟩

/-- Concrete repository with stale content, exercising `reset`. -/
def exRepo : TSRepository Int := ⟨[(99, 99)], 1⟩

/-- Concrete loader batch. -/
def exBatch1 : TSBatch Int := ⟨[10, 20], [7, 8], [11, 21], [12, 22]⟩

/-- Concrete loader batch. -/
def exBatch2 : TSBatch Int := ⟨[30, 40], [9, 3], [31, 41], [32, 42]⟩

/-- Concrete fallible encoder: raises on negative samples. -/
def exEncodeE (x : Int) : Except Unit Int := if x < 0 then .error () else .ok x

/-- Concrete batch on which `exEncodeE` raises. -/
def exBadBatch : TSBatch Int := ⟨[-1, 5], [0, 1], [-2, 6], [-3, 7]⟩

/-! ## Lemmas about the fill loop -/

theorem processBatch_repo_entries (encode : σ → ε) (real_aug : Bool)
    (s : FillState σ ε) (b : TSBatch σ) :
    (processBatch encode real_aug s b).repo.entries
      = s.repo.entries ++ perBatchEntries encode real_aug b := by
  cases real_aug <;>
    simp [processBatch, perBatchEntries, TSRepository.update, List.append_assoc]

theorem processBatch_repoAug (encode : σ → ε) (real_aug : Bool)
    (s : FillState σ ε) (b : TSBatch σ) :
    (processBatch encode real_aug s b).repoAug
      = s.repoAug.map (fun r =>
          { r with entries := r.entries ++ perBatchAugEntries encode real_aug b }) := by
  cases real_aug <;> rcases h : s.repoAug with _ | r <;>
    simp [processBatch, perBatchAugEntries, updateAug, TSRepository.update,
      List.append_assoc, h]

theorem processBatch_con_data (encode : σ → ε) (real_aug : Bool)
    (s : FillState σ ε) (b : TSBatch σ) :
    (processBatch encode real_aug s b).con_data
      = s.con_data ++ perBatchConData real_aug b := by
  cases real_aug <;>
    simp [processBatch, perBatchConData, List.append_assoc]

theorem processBatch_con_target (encode : σ → ε) (real_aug : Bool)
    (s : FillState σ ε) (b : TSBatch σ) :
    (processBatch encode real_aug s b).con_target
      = s.con_target ++ perBatchConTarget real_aug b := by
  cases real_aug <;>
    simp [processBatch, perBatchConTarget, List.append_assoc]

theorem foldl_processBatch_repo_entries (encode : σ → ε) (real_aug : Bool) :
    ∀ (l : List (TSBatch σ)) (s : FillState σ ε),
      ((l.foldl (processBatch encode real_aug) s).repo.entries)
        = s.repo.entries ++ l.flatMap (perBatchEntries encode real_aug) := by
  intro l
  induction l with
  | nil => intro s; simp
  | cons b l ih =>
    intro s
    rw [List.foldl_cons, ih, processBatch_repo_entries, List.flatMap_cons,
      List.append_assoc]

theorem foldl_processBatch_repoAug (encode : σ → ε) (real_aug : Bool) :
    ∀ (l : List (TSBatch σ)) (s : FillState σ ε),
      ((l.foldl (processBatch encode real_aug) s).repoAug)
        = s.repoAug.map (fun r =>
            { r with entries :=
                r.entries ++ l.flatMap (perBatchAugEntries encode real_aug) }) := by
  intro l
  induction l with
  | nil => intro s; rcases h : s.repoAug with _ | r <;> simp [h]
  | cons b l ih =>
    intro s
    rw [List.foldl_cons, ih, processBatch_repoAug]
    rcases h : s.repoAug with _ | r <;>
      simp [h, List.flatMap_cons, List.append_assoc]

theorem foldl_processBatch_con_data (encode : σ → ε) (real_aug : Bool) :
    ∀ (l : List (TSBatch σ)) (s : FillState σ ε),
      ((l.foldl (processBatch encode real_aug) s).con_data)
        = s.con_data ++ l.flatMap (perBatchConData real_aug) := by
  intro l
  induction l with
  | nil => intro s; simp
  | cons b l ih =>
    intro s
    rw [List.foldl_cons, ih, processBatch_con_data, List.flatMap_cons,
      List.append_assoc]

theorem foldl_processBatch_con_target (encode : σ → ε) (real_aug : Bool) :
    ∀ (l : List (TSBatch σ)) (s : FillState σ ε),
      ((l.foldl (processBatch encode real_aug) s).con_target)
        = s.con_target ++ l.flatMap (perBatchConTarget real_aug) := by
  intro l
  induction l with
  | nil => intro s; simp
  | cons b l ih =>
    intro s
    rw [List.foldl_cons, ih, processBatch_con_target, List.flatMap_cons,
      List.append_assoc]

theorem fillLoop_repo_entries (loader : List (TSBatch σ)) (encode : σ → ε)
    (repo : TSRepository ε) (real_aug : Bool) (repoAug : Option (TSRepository ε)) :
    (fillLoop loader encode repo real_aug repoAug).repo.entries
      = loader.flatMap (perBatchEntries encode real_aug) := by
  rw [fillLoop, foldl_processBatch_repo_entries]
  cases real_aug <;> simp [fillStart, TSRepository.reset, TSRepository.resize]

theorem fillLoop_repoAug (loader : List (TSBatch σ)) (encode : σ → ε)
    (repo : TSRepository ε) (real_aug : Bool) (repoAug : Option (TSRepository ε)) :
    (fillLoop loader encode repo real_aug repoAug).repoAug
      = repoAug.map (fun r =>
          ⟨loader.flatMap (perBatchAugEntries encode real_aug), r.multiplicity⟩) := by
  rw [fillLoop, foldl_processBatch_repoAug]
  cases repoAug <;> simp [fillStart, TSRepository.reset]

theorem fillLoop_con_data (loader : List (TSBatch σ)) (encode : σ → ε)
    (repo : TSRepository ε) (real_aug : Bool) (repoAug : Option (TSRepository ε)) :
    (fillLoop loader encode repo real_aug repoAug).con_data
      = loader.flatMap (perBatchConData real_aug) := by
  rw [fillLoop, foldl_processBatch_con_data]
  simp [fillStart]

theorem fillLoop_con_target (loader : List (TSBatch σ)) (encode : σ → ε)
    (repo : TSRepository ε) (real_aug : Bool) (repoAug : Option (TSRepository ε)) :
    (fillLoop loader encode repo real_aug repoAug).con_target
      = loader.flatMap (perBatchConTarget real_aug) := by
  rw [fillLoop, foldl_processBatch_con_target]
  simp [fillStart]

theorem zip_replicate_right (xs : List α) (c : β) :
    xs.zip (List.replicate xs.length c) = xs.map (fun x => (x, c)) := by
  induction xs with
  | nil => rfl
  | cons x xs ih => simp [List.replicate_succ, ih]

theorem length_flatMap_const {f : α → List β} {n : Nat} :
    ∀ (l : List α), (∀ b ∈ l, (f b).length = n) →
      (l.flatMap f).length = l.length * n := by
  intro l
  induction l with
  | nil => intro _; simp
  | cons b l ih =>
    intro h
    rw [List.flatMap_cons, List.length_append, h b (List.mem_cons_self _ _),
      ih (fun x hx => h x (List.mem_cons_of_mem _ hx))]
    simp [List.length_cons]
    ring

/-! ## Claims about the repository content of a fill pass -/

/-- C1: for every fill pass with augmentation enabled over a loader of batches
each of size n, the primary repository ends with exactly 3x the total number
of original samples, and per batch the entries arrive as n entries with the
true targets, then n entries with label 2 (weak-augmented), then n entries
with label 4 (strong-augmented). -/
theorem c1_fill_aug_repository (loader : List (TSBatch σ)) (encode : σ → ε)
    (repo : TSRepository ε) (repoAug : Option (TSRepository ε)) (n : Nat)
    (hsz : ∀ b ∈ loader, b.ts_org.length = n ∧ b.target.length = n
      ∧ b.ts_w_augment.length = n ∧ b.ts_ss_augment.length = n) :
    (fillLoop loader encode repo true repoAug).repo.entries
      = loader.flatMap (fun b =>
          (b.ts_org.map encode).zip b.target
            ++ (b.ts_w_augment.map encode).map (fun x => (x, (2 : Int)))
            ++ (b.ts_ss_augment.map encode).map (fun x => (x, (4 : Int))))
    ∧ (fillLoop loader encode repo true repoAug).repo.entries.length
        = 3 * (loader.length * n) := by
  have hb : ∀ b : TSBatch σ, perBatchEntries encode true b
      = (b.ts_org.map encode).zip b.target
          ++ (b.ts_w_augment.map encode).map (fun x => (x, (2 : Int)))
          ++ (b.ts_ss_augment.map encode).map (fun x => (x, (4 : Int))) := by
    intro b
    have hw : List.replicate b.ts_w_augment.length (2 : Int)
        = List.replicate (b.ts_w_augment.map encode).length 2 := by
      rw [List.length_map]
    have hss : List.replicate b.ts_ss_augment.length (4 : Int)
        = List.replicate (b.ts_ss_augment.map encode).length 4 := by
      rw [List.length_map]
    rw [perBatchEntries, if_pos rfl, hw, hss, zip_replicate_right,
      zip_replicate_right, List.append_assoc]
  constructor
  · rw [fillLoop_repo_entries]
    exact List.flatMap_congr (fun b _ => hb b)
  · rw [fillLoop_repo_entries,
      length_flatMap_const loader (f := perBatchEntries encode true) (n := 3 * n)
        ?_]
    · ring
    · intro b hbl
      obtain ⟨h1, h2, h3, h4⟩ := hsz b hbl
      rw [hb b]
      simp [List.length_append, List.length_map, List.length_zip, h1, h2, h3, h4]
      omega

/-- C1 witness: two batches of size 2 under a concrete encoder. -/
theorem c1_fill_aug_repository_witness :
    (∀ b ∈ [exBatch1, exBatch2], b.ts_org.length = 2 ∧ b.target.length = 2
      ∧ b.ts_w_augment.length = 2 ∧ b.ts_ss_augment.length = 2)
    ∧ ((fillLoop [exBatch1, exBatch2] (fun x => x + 1) exRepo true
          (some exRepo)).repo.entries
        = [exBatch1, exBatch2].flatMap (fun b =>
            (b.ts_org.map (fun x => x + 1)).zip b.target
              ++ (b.ts_w_augment.map (fun x => x + 1)).map (fun x => (x, (2 : Int)))
              ++ (b.ts_ss_augment.map (fun x => x + 1)).map (fun x => (x, (4 : Int))))
      ∧ (fillLoop [exBatch1, exBatch2] (fun x => x + 1) exRepo true
          (some exRepo)).repo.entries.length = 3 * ([exBatch1, exBatch2].length * 2)) :=
  ⟨by decide,
    c1_fill_aug_repository [exBatch1, exBatch2] (fun x => x + 1) exRepo
      (some exRepo) 2 (by decide)⟩

/-- C2: for every fill pass with augmentation disabled, the primary
repository ends with exactly the total number of samples across all loader
batches, in loader arrival order with labels equal to the original
targets. -/
theorem c2_fill_noaug_repository (loader : List (TSBatch σ)) (encode : σ → ε)
    (repo : TSRepository ε) (repoAug : Option (TSRepository ε))
    (hsz : ∀ b ∈ loader, b.target.length = b.ts_org.length) :
    (fillLoop loader encode repo false repoAug).repo.entries
      = loader.flatMap (fun b => (b.ts_org.map encode).zip b.target)
    ∧ (fillLoop loader encode repo false repoAug).repo.entries.length
        = totalSamples loader := by
  have hb : ∀ b : TSBatch σ, perBatchEntries encode false b
      = (b.ts_org.map encode).zip b.target := by
    intro b
    simp [perBatchEntries]
  constructor
  · rw [fillLoop_repo_entries]
    exact List.flatMap_congr (fun b _ => hb b)
  · rw [fillLoop_repo_entries]
    unfold totalSamples
    induction loader with
    | nil => simp
    | cons b l ih =>
      rw [List.flatMap_cons, List.length_append, List.map_cons, List.sum_cons,
        ih (fun x hx => hsz x (List.mem_cons_of_mem _ hx)), hb b]
      rw [List.length_zip, List.length_map, hsz b (List.mem_cons_self _ _),
        Nat.min_self]

/-- C2 witness: two batches of size 2 under a concrete encoder. -/
theorem c2_fill_noaug_repository_witness :
    (∀ b ∈ [exBatch1, exBatch2], b.target.length = b.ts_org.length)
    ∧ ((fillLoop [exBatch1, exBatch2] (fun x => x + 1) exRepo false none).repo.entries
        = [exBatch1, exBatch2].flatMap (fun b => (b.ts_org.map (fun x => x + 1)).zip b.target)
      ∧ (fillLoop [exBatch1, exBatch2] (fun x => x + 1) exRepo false
            none).repo.entries.length
          = totalSamples [exBatch1, exBatch2]) :=
  ⟨by decide,
    c2_fill_noaug_repository [exBatch1, exBatch2] (fun x => x + 1) exRepo none
      (by decide)⟩

/-- C5: with a secondary repository supplied, each batch contributes to it the
original (embedding, true target) pairs and, with augmentation enabled, the
strong-augmented (embedding, 4) pairs — never the weak-augmented pairs — so
with augmentation enabled it ends with exactly 2x the total original sample
count. -/
theorem c5_fill_secondary_repository (loader : List (TSBatch σ)) (encode : σ → ε)
    (repo rAug : TSRepository ε) (n : Nat)
    (hsz : ∀ b ∈ loader, b.ts_org.length = n ∧ b.target.length = n
      ∧ b.ts_ss_augment.length = n) :
    ∃ r', (fillLoop loader encode repo true (some rAug)).repoAug = some r'
      ∧ r'.entries = loader.flatMap (fun b =>
          (b.ts_org.map encode).zip b.target
            ++ (b.ts_ss_augment.map encode).map (fun x => (x, (4 : Int))))
      ∧ r'.entries.length = 2 * (loader.length * n) := by
  have hb : ∀ b : TSBatch σ, perBatchAugEntries encode true b
      = (b.ts_org.map encode).zip b.target
          ++ (b.ts_ss_augment.map encode).map (fun x => (x, (4 : Int))) := by
    intro b
    have hss : List.replicate b.ts_ss_augment.length (4 : Int)
        = List.replicate (b.ts_ss_augment.map encode).length 4 := by
      rw [List.length_map]
    rw [perBatchAugEntries, if_pos rfl, hss, zip_replicate_right]
  refine ⟨⟨loader.flatMap (perBatchAugEntries encode true), rAug.multiplicity⟩,
    fillLoop_repoAug loader encode repo true (some rAug), ?_, ?_⟩
  · exact List.flatMap_congr (fun b _ => hb b)
  · rw [length_flatMap_const loader (f := perBatchAugEntries encode true)
      (n := 2 * n) ?_]
    · ring
    · intro b hbl
      obtain ⟨h1, h2, h3⟩ := hsz b hbl
      rw [hb b]
      simp [List.length_append, List.length_map, List.length_zip, h1, h2, h3]
      omega

/-- C5 witness: two batches of size 2, secondary repository supplied. -/
theorem c5_fill_secondary_repository_witness :
    (∀ b ∈ [exBatch1, exBatch2], b.ts_org.length = 2 ∧ b.target.length = 2
      ∧ b.ts_ss_augment.length = 2)
    ∧ ∃ r', (fillLoop [exBatch1, exBatch2] (fun x => x + 1) exRepo true
          (some exRepo)).repoAug = some r'
        ∧ r'.entries = [exBatch1, exBatch2].flatMap (fun b =>
            (b.ts_org.map (fun x => x + 1)).zip b.target
              ++ (b.ts_ss_augment.map (fun x => x + 1)).map (fun x => (x, (4 : Int))))
        ∧ r'.entries.length = 2 * ([exBatch1, exBatch2].length * 2) :=
  ⟨by decide,
    c5_fill_secondary_repository [exBatch1, exBatch2] (fun x => x + 1) exRepo
      exRepo 2 (by decide)⟩

/-- C7: a fill pass is a pure function of the loader contents and the encoder
with respect to the repository content it produces: rerunning the pass, with
the repository state left by the first run as the incoming state, yields
bit-identical repository content (and indeed the incoming repository state is
irrelevant, since the pass begins with `reset()`). -/
theorem c7_fill_idempotent (loader : List (TSBatch σ)) (encode : σ → ε)
    (repo r₂ : TSRepository ε) (real_aug : Bool)
    (repoAug o₂ : Option (TSRepository ε)) :
    (fillLoop loader encode
        ((fillLoop loader encode repo real_aug repoAug).repo) real_aug
        repoAug).repo.entries
      = (fillLoop loader encode repo real_aug repoAug).repo.entries
    ∧ (fillLoop loader encode r₂ real_aug o₂).repo.entries
      = (fillLoop loader encode repo real_aug repoAug).repo.entries := by
  constructor <;> rw [fillLoop_repo_entries, fillLoop_repo_entries]

/-! ## Lemmas about the full pass, including the auxiliary dataset step -/

theorem torchCat_ne_nil (l : List (List α)) (h : l ≠ []) :
    torchCat l = .ok l.flatten := by
  cases l with
  | nil => exact absurd rfl h
  | cons c cs => rfl

theorem fill_ts_repository_false (p : FillParams) (loader : List (TSBatch σ))
    (encode : σ → ε) (repo : TSRepository ε) (repoAug : Option (TSRepository ε)) :
    fill_ts_repository p loader encode repo false repoAug
      = .ok (fillLoop loader encode repo false repoAug, none) := rfl

theorem fillLoop_con_data_ne_nil (loader : List (TSBatch σ)) (encode : σ → ε)
    (repo : TSRepository ε) (repoAug : Option (TSRepository ε))
    (hne : loader ≠ []) :
    (fillLoop loader encode repo true repoAug).con_data ≠ [] := by
  rcases loader with _ | ⟨b, l⟩
  · exact absurd rfl hne
  · rw [fillLoop_con_data, List.flatMap_cons]
    simp [perBatchConData]

theorem fillLoop_con_target_ne_nil (loader : List (TSBatch σ)) (encode : σ → ε)
    (repo : TSRepository ε) (repoAug : Option (TSRepository ε))
    (hne : loader ≠ []) :
    (fillLoop loader encode repo true repoAug).con_target ≠ [] := by
  rcases loader with _ | ⟨b, l⟩
  · exact absurd rfl hne
  · rw [fillLoop_con_target, List.flatMap_cons]
    simp [perBatchConTarget]

theorem fill_ts_repository_true (p : FillParams) (loader : List (TSBatch σ))
    (encode : σ → ε) (repo : TSRepository ε) (repoAug : Option (TSRepository ε))
    (hne : loader ≠ []) :
    fill_ts_repository p loader encode repo true repoAug
      = .ok (fillLoop loader encode repo true repoAug,
          some (p.contrastive_dataset,
            { dataset :=
                { data := (fillLoop loader encode repo true repoAug).con_data.flatten,
                  targets :=
                    (fillLoop loader encode repo true repoAug).con_target.flatten },
              num_workers := p.num_workers, batch_size := p.batch_size,
              pin_memory := false, drop_last := false, shuffle := false })) := by
  have hd := fillLoop_con_data_ne_nil loader encode repo repoAug hne
  have ht := fillLoop_con_target_ne_nil loader encode repo repoAug hne
  unfold fill_ts_repository
  rw [if_pos rfl, torchCat_ne_nil _ hd, torchCat_ne_nil _ ht]
  rfl

theorem flatten_flatMap_triple (f g k : α → List β) :
    ∀ (l : List α),
      (l.flatMap (fun b => [f b, g b, k b])).flatten
        = l.flatMap (fun b => f b ++ g b ++ k b) := by
  intro l
  induction l with
  | nil => rfl
  | cons b l ih =>
    rw [List.flatMap_cons, List.flatMap_cons, List.flatten_append, ih]
    simp [List.append_assoc]

/-- C3 counterexample: a loader yielding zero batches with augmentation
enabled does NOT complete without raising — the concatenation of the empty
accumulation list (`torch.cat(con_data)`) raises. -/
theorem c3_counterexample :
    fill_ts_repository exParams ([] : List (TSBatch Int)) (fun x => x) exRepo
        true (some exRepo)
      = .error .catEmptyList := rfl

/-- C3 (amended): a loader yielding zero batches terminates without raising
and leaves the primary repository empty when augmentation is disabled; with
augmentation enabled the loop itself still leaves the repository empty, but
the pass then raises at the auxiliary-dataset concatenation step
(`torch.cat` on the empty accumulation list), so no auxiliary dataset is
produced. -/
theorem c3_empty_loader (p : FillParams) (encode : σ → ε)
    (repo : TSRepository ε) (repoAug : Option (TSRepository ε)) :
    fill_ts_repository p ([] : List (TSBatch σ)) encode repo false repoAug
        = .ok (fillLoop [] encode repo false repoAug, none)
    ∧ (fillLoop ([] : List (TSBatch σ)) encode repo false repoAug).repo.entries = []
    ∧ fill_ts_repository p ([] : List (TSBatch σ)) encode repo true repoAug
        = .error .catEmptyList
    ∧ (fillLoop ([] : List (TSBatch σ)) encode repo true repoAug).repo.entries
        = [] := by
  refine ⟨rfl, ?_, rfl, ?_⟩ <;> rw [fillLoop_repo_entries] <;> rfl

/-- C4 counterexample: with augmentation disabled no auxiliary dataset is
produced at all (the pass returns no persisted artifact), although the pass
completes over a loader holding 2 samples — so the disabled pass has no
auxiliary dataset of length 1x the sample count. -/
theorem c4_counterexample :
    (¬ ∃ (s : FillState Int Int) (pl : String × ConLoader Int),
        fill_ts_repository exParams [exBatch1] (fun x => x) exRepo false none
          = Except.ok (s, some pl))
    ∧ totalSamples [exBatch1] = 2 := by
  constructor
  · rintro ⟨s, pl, h⟩
    rw [fill_ts_repository_false] at h
    simp at h
  · rfl

/-- C4 (amended): with augmentation enabled and a nonempty loader of batches
of size n, the pass completes and the auxiliary dataset's length is exactly
3x the total original sample count; with augmentation disabled, the pass
completes but produces no auxiliary dataset at all. -/
theorem c4_aux_dataset_length (p : FillParams) (loader : List (TSBatch σ))
    (encode : σ → ε) (repo : TSRepository ε)
    (repoAug : Option (TSRepository ε)) (n : Nat)
    (hne : loader ≠ [])
    (hsz : ∀ b ∈ loader, b.ts_org.length = n ∧ b.ts_w_augment.length = n
      ∧ b.ts_ss_augment.length = n) :
    (∃ s, fill_ts_repository p loader encode repo false repoAug = .ok (s, none))
    ∧ (∃ s L, fill_ts_repository p loader encode repo true repoAug
          = .ok (s, some (p.contrastive_dataset, L))
        ∧ L.dataset.len = 3 * (loader.length * n)) := by
  refine ⟨⟨_, fill_ts_repository_false p loader encode repo repoAug⟩,
    ⟨_, _, fill_ts_repository_true p loader encode repo repoAug hne, ?_⟩⟩
  rw [SaveAugmentedDataset.len]
  show (fillLoop loader encode repo true repoAug).con_data.flatten.length
    = 3 * (loader.length * n)
  rw [fillLoop_con_data]
  have hc : loader.flatMap (perBatchConData true)
      = loader.flatMap (fun b : TSBatch σ =>
          [b.ts_org, b.ts_w_augment, b.ts_ss_augment]) :=
    List.flatMap_congr (fun b _ => by simp [perBatchConData])
  rw [hc, flatten_flatMap_triple]
  rw [length_flatMap_const loader
    (f := fun b : TSBatch σ => b.ts_org ++ b.ts_w_augment ++ b.ts_ss_augment)
    (n := 3 * n) ?_]
  · ring
  · intro b hbl
    obtain ⟨h1, h2, h3⟩ := hsz b hbl
    simp [List.length_append, h1, h2, h3]
    omega

/-- C4 witness: one batch of size 2 with augmentation on and off. -/
theorem c4_aux_dataset_length_witness :
    ([exBatch1] ≠ ([] : List (TSBatch Int))
      ∧ ∀ b ∈ [exBatch1], b.ts_org.length = 2 ∧ b.ts_w_augment.length = 2
          ∧ b.ts_ss_augment.length = 2)
    ∧ ((∃ s, fill_ts_repository exParams [exBatch1] (fun x => x + 1) exRepo
          false none = .ok (s, none))
      ∧ (∃ s L, fill_ts_repository exParams [exBatch1] (fun x => x + 1) exRepo
            true none = .ok (s, some (exParams.contrastive_dataset, L))
          ∧ L.dataset.len = 3 * ([exBatch1].length * 2))) :=
  ⟨⟨by decide, by decide⟩,
    c4_aux_dataset_length exParams [exBatch1] (fun x => x + 1) exRepo none 2
      (by decide) (by decide)⟩

/-- C8: with augmentation enabled (and at least one batch so the pass
completes), the persisted loader wraps the auxiliary dataset in accumulation
order — per batch the original samples, then the weak-augmented, then the
strong-augmented, with matching targets — and is configured with the
caller-supplied worker count and batch size, shuffle disabled, drop_last
disabled, pin_memory disabled, at the caller-specified path. -/
theorem c8_saved_loader_config (p : FillParams) (loader : List (TSBatch σ))
    (encode : σ → ε) (repo : TSRepository ε)
    (repoAug : Option (TSRepository ε)) (hne : loader ≠ []) :
    ∃ s L, fill_ts_repository p loader encode repo true repoAug
        = .ok (s, some (p.contrastive_dataset, L))
      ∧ L.num_workers = p.num_workers ∧ L.batch_size = p.batch_size
      ∧ L.shuffle = false ∧ L.drop_last = false ∧ L.pin_memory = false
      ∧ L.dataset.data = loader.flatMap (fun b =>
          b.ts_org ++ b.ts_w_augment ++ b.ts_ss_augment)
      ∧ L.dataset.targets = loader.flatMap (fun b =>
          b.target ++ List.replicate b.ts_w_augment.length 2
            ++ List.replicate b.ts_ss_augment.length 4) := by
  refine ⟨_, _, fill_ts_repository_true p loader encode repo repoAug hne,
    rfl, rfl, rfl, rfl, rfl, ?_, ?_⟩
  · show (fillLoop loader encode repo true repoAug).con_data.flatten = _
    rw [fillLoop_con_data]
    have hc : loader.flatMap (perBatchConData true)
        = loader.flatMap (fun b : TSBatch σ =>
            [b.ts_org, b.ts_w_augment, b.ts_ss_augment]) :=
      List.flatMap_congr (fun b _ => by simp [perBatchConData])
    rw [hc, flatten_flatMap_triple]
  · show (fillLoop loader encode repo true repoAug).con_target.flatten = _
    rw [fillLoop_con_target]
    have hc : loader.flatMap (perBatchConTarget true)
        = loader.flatMap (fun b : TSBatch σ =>
            [b.target, List.replicate b.ts_w_augment.length 2,
              List.replicate b.ts_ss_augment.length 4]) :=
      List.flatMap_congr (fun b _ => by simp [perBatchConTarget])
    rw [hc, flatten_flatMap_triple]

/-- C8 witness: two concrete batches. -/
theorem c8_saved_loader_config_witness :
    ([exBatch1, exBatch2] ≠ ([] : List (TSBatch Int)))
    ∧ ∃ s L, fill_ts_repository exParams [exBatch1, exBatch2] (fun x => x + 1)
          exRepo true (some exRepo)
        = .ok (s, some (exParams.contrastive_dataset, L))
      ∧ L.num_workers = exParams.num_workers ∧ L.batch_size = exParams.batch_size
      ∧ L.shuffle = false ∧ L.drop_last = false ∧ L.pin_memory = false
      ∧ L.dataset.data = [exBatch1, exBatch2].flatMap (fun b =>
          b.ts_org ++ b.ts_w_augment ++ b.ts_ss_augment)
      ∧ L.dataset.targets = [exBatch1, exBatch2].flatMap (fun b =>
          b.target ++ List.replicate b.ts_w_augment.length 2
            ++ List.replicate b.ts_ss_augment.length 4) :=
  ⟨by decide,
    c8_saved_loader_config exParams [exBatch1, exBatch2] (fun x => x + 1)
      exRepo (some exRepo) (by decide)⟩

/-! ## Error propagation through the loop -/

theorem processBatchE_pure (η : Type) (encode : σ → ε) (real_aug : Bool)
    (s : FillState σ ε) (b : TSBatch σ) :
    processBatchE (fun x => (Except.ok (encode x) : Except η ε)) real_aug s b
      = (processBatch encode real_aug s b, none) := by
  have hmap : ∀ xs : List σ,
      encodeBatchE (fun x => (Except.ok (encode x) : Except η ε)) xs
        = Except.ok (xs.map encode) := by
    intro xs
    induction xs with
    | nil => rfl
    | cons x xs ih =>
      simp only [encodeBatchE, List.mapM_cons] at ih ⊢
      rw [ih]
      rfl
  cases real_aug <;>
    simp [processBatchE, processBatch, hmap]

theorem loopBatchesE_append (encodeE : σ → Except η ε) (real_aug : Bool) :
    ∀ (pre rest : List (TSBatch σ)) (s : FillState σ ε),
      (loopBatchesE encodeE real_aug s pre).2 = none →
      loopBatchesE encodeE real_aug s (pre ++ rest)
        = loopBatchesE encodeE real_aug (loopBatchesE encodeE real_aug s pre).1
            rest := by
  intro pre
  induction pre with
  | nil => intro rest s _; rfl
  | cons b pre ih =>
    intro rest s h
    rcases heq : processBatchE encodeE real_aug s b with ⟨s', _ | e⟩
    · rw [List.cons_append]
      simp only [loopBatchesE, heq] at h ⊢
      exact ih rest s' h
    · simp only [loopBatchesE, heq] at h
      exact absurd h (Option.some_ne_none e)

theorem processBatchE_entries (encodeE : σ → Except η ε) (real_aug : Bool)
    (s : FillState σ ε) (b : TSBatch σ) :
    ∃ t, (processBatchE encodeE real_aug s b).1.repo.entries
      = s.repo.entries ++ t := by
  unfold processBatchE
  rcases encodeBatchE encodeE b.ts_org with e | output
  · exact ⟨[], by simp⟩
  · cases real_aug
    · exact ⟨output.zip b.target, by simp [TSRepository.update]⟩
    · rcases encodeBatchE encodeE b.ts_w_augment with e | wOutput
      · exact ⟨output.zip b.target, by simp [TSRepository.update]⟩
      · rcases encodeBatchE encodeE b.ts_ss_augment with e | ssOutput
        · exact ⟨output.zip b.target
              ++ wOutput.zip (List.replicate b.ts_w_augment.length 2),
            by simp [TSRepository.update, List.append_assoc]⟩
        · exact ⟨output.zip b.target
              ++ (wOutput.zip (List.replicate b.ts_w_augment.length 2)
                ++ ssOutput.zip (List.replicate b.ts_ss_augment.length 4)),
            by simp [TSRepository.update, List.append_assoc]⟩

/-- C6: if an operation raises on batch k (here the encoder, the loop's
fallible tensor operation), the error propagates uncaught out of the loop —
the batches after k are not processed, the result carries the error — and the
repository retains every entry written for batches 0..k-1 (its content up to
batch k is a prefix of the final content): no rollback or clearing occurs. -/
theorem c6_error_propagation (encodeE : σ → Except η ε) (real_aug : Bool)
    (repo : TSRepository ε) (repoAug : Option (TSRepository ε))
    (pre post : List (TSBatch σ)) (bk : TSBatch σ) (e : η)
    (hpre : (fillLoopE pre encodeE repo real_aug repoAug).2 = none)
    (hk : (processBatchE encodeE real_aug
        (fillLoopE pre encodeE repo real_aug repoAug).1 bk).2 = some e) :
    fillLoopE (pre ++ bk :: post) encodeE repo real_aug repoAug
        = ((processBatchE encodeE real_aug
            (fillLoopE pre encodeE repo real_aug repoAug).1 bk).1, some e)
    ∧ (fillLoopE pre encodeE repo real_aug repoAug).1.repo.entries
        <+: (fillLoopE (pre ++ bk :: post) encodeE repo real_aug
            repoAug).1.repo.entries := by
  have h1 : fillLoopE (pre ++ bk :: post) encodeE repo real_aug repoAug
      = loopBatchesE encodeE real_aug
          (fillLoopE pre encodeE repo real_aug repoAug).1 (bk :: post) :=
    loopBatchesE_append encodeE real_aug pre (bk :: post) _ hpre
  rcases heq : processBatchE encodeE real_aug
      (fillLoopE pre encodeE repo real_aug repoAug).1 bk with ⟨s', oe⟩
  have hoe : oe = some e := by rw [heq] at hk; exact hk
  subst hoe
  have h2 : fillLoopE (pre ++ bk :: post) encodeE repo real_aug repoAug
      = (s', some e) := by
    rw [h1]
    simp only [loopBatchesE, heq]
  constructor
  · rw [h2]
  · obtain ⟨t, ht⟩ := processBatchE_entries encodeE real_aug
      (fillLoopE pre encodeE repo real_aug repoAug).1 bk
    rw [h2]
    rw [heq] at ht
    simp only at ht
    rw [ht]
    exact List.prefix_append _ _

/-- C6 witness: the encoder raises on the second batch; the first batch's
entries are retained and the third batch is never processed. -/
theorem c6_error_propagation_witness :
    ((fillLoopE [exBatch1] exEncodeE exRepo true none).2 = none
      ∧ (processBatchE exEncodeE true
          (fillLoopE [exBatch1] exEncodeE exRepo true none).1 exBadBatch).2
        = some ())
    ∧ (fillLoopE ([exBatch1] ++ exBadBatch :: [exBatch2]) exEncodeE exRepo true
          none
        = ((processBatchE exEncodeE true
            (fillLoopE [exBatch1] exEncodeE exRepo true none).1 exBadBatch).1,
          some ())
      ∧ (fillLoopE [exBatch1] exEncodeE exRepo true none).1.repo.entries
          <+: (fillLoopE ([exBatch1] ++ exBadBatch :: [exBatch2]) exEncodeE
              exRepo true none).1.repo.entries) :=
  ⟨⟨by decide, by decide⟩,
    c6_error_propagation exEncodeE true exRepo none [exBatch1] [exBatch2]
      exBadBatch () (by decide) (by decide)⟩

/-! ## Anomaly-sequence extraction -/

theorem faGo_cons_one_false (A : List (Nat × Nat)) (s i : Nat) (r : List Int) :
    faGo A false s i (1 :: r) = faGo A true i (i + 1) r := by
  simp only [faGo]
  rw [if_pos (by simp)]

theorem faGo_cons_one_true (A : List (Nat × Nat)) (s i : Nat) (r : List Int) :
    faGo A true s i (1 :: r) = faGo A true s (i + 1) r := by
  simp only [faGo]
  rw [if_neg (by simp), if_neg (by simp)]

theorem faGo_cons_zero_false (A : List (Nat × Nat)) (s i : Nat) (r : List Int) :
    faGo A false s i (0 :: r) = faGo A false s (i + 1) r := by
  simp only [faGo]
  rw [if_neg (by simp), if_neg (by simp)]

theorem faGo_cons_zero_true (A : List (Nat × Nat)) (s i : Nat) (r : List Int) :
    faGo A true s i (0 :: r) = faGo (A ++ [(s, i - 1)]) false s (i + 1) r := by
  simp only [faGo]
  rw [if_neg (by simp), if_pos (by simp)]

theorem faGo_cons_other (A : List (Nat × Nat)) (f : Bool) (s i : Nat)
    (l : Int) (r : List Int) (h1 : ¬(l = 1 ∧ f = false))
    (h2 : ¬(l = 0 ∧ f = true)) :
    faGo A f s i (l :: r) = faGo A f s (i + 1) r := by
  simp only [faGo]
  rw [if_neg h1, if_neg h2]

theorem faGo_append (r : List Int) :
    ∀ (A B : List (Nat × Nat)) (f : Bool) (s i : Nat),
      faGo (A ++ B) f s i r
        = ⟨A ++ (faGo B f s i r).anomalies, (faGo B f s i r).in_anomaly,
            (faGo B f s i r).start_idx⟩ := by
  induction r with
  | nil => intro A B f s i; rfl
  | cons l r ih =>
    intro A B f s i
    by_cases h1 : l = 1 ∧ f = false
    · obtain ⟨rfl, rfl⟩ := h1
      rw [faGo_cons_one_false, faGo_cons_one_false, ih]
    · by_cases h2 : l = 0 ∧ f = true
      · obtain ⟨rfl, rfl⟩ := h2
        rw [faGo_cons_zero_true, faGo_cons_zero_true, List.append_assoc, ih]
      · rw [faGo_cons_other (A ++ B) f s i l r h1 h2,
          faGo_cons_other B f s i l r h1 h2, ih]

theorem faGo_acc (A : List (Nat × Nat)) (f : Bool) (s i : Nat) (r : List Int) :
    faGo A f s i r
      = ⟨A ++ (faGo [] f s i r).anomalies, (faGo [] f s i r).in_anomaly,
          (faGo [] f s i r).start_idx⟩ := by
  have h := faGo_append r A [] f s i
  rwa [List.append_nil] at h

theorem faClose_cons (x : Nat × Nat) (A : List (Nat × Nat)) (f : Bool)
    (sid n : Nat) :
    faClose ⟨x :: A, f, sid⟩ n = x :: faClose ⟨A, f, sid⟩ n := by
  cases f <;> simp [faClose]

theorem faOut_nil_false (s i : Nat) : faOut false s i [] = [] := rfl

theorem faOut_nil_true (s i : Nat) : faOut true s i [] = [(s, i - 1)] := by
  simp [faOut, faGo, faClose]

theorem faOut_cons_one_false (s i : Nat) (r : List Int) :
    faOut false s i (1 :: r) = faOut true i (i + 1) r := by
  unfold faOut
  rw [faGo_cons_one_false]
  congr 1
  simp only [List.length_cons]
  omega

theorem faOut_cons_one_true (s i : Nat) (r : List Int) :
    faOut true s i (1 :: r) = faOut true s (i + 1) r := by
  unfold faOut
  rw [faGo_cons_one_true]
  congr 1
  simp only [List.length_cons]
  omega

theorem faOut_cons_zero_false (s i : Nat) (r : List Int) :
    faOut false s i (0 :: r) = faOut false s (i + 1) r := by
  unfold faOut
  rw [faGo_cons_zero_false]
  congr 1
  simp only [List.length_cons]
  omega

theorem faOut_cons_zero_true (s i : Nat) (r : List Int) :
    faOut true s i (0 :: r) = (s, i - 1) :: faOut false s (i + 1) r := by
  unfold faOut
  rw [faGo_cons_zero_true, List.nil_append, faGo_acc, List.singleton_append,
    faClose_cons]
  show (s, i - 1) :: faClose (faGo [] false s (i + 1) r) (i + (0 :: r : List Int).length)
    = (s, i - 1) :: faClose (faGo [] false s (i + 1) r) (i + 1 + r.length)
  congr 2
  simp only [List.length_cons]
  omega

theorem covered_nil (m : Nat) : ¬ covered [] m := by
  simp [covered]

theorem covered_cons (x : Nat × Nat) (out : List (Nat × Nat)) (m : Nat) :
    covered (x :: out) m ↔ (x.1 ≤ m ∧ m ≤ x.2) ∨ covered out m := by
  simp [covered, List.mem_cons, or_and_right, exists_or]

theorem covered_cons_mk (a b : Nat) (out : List (Nat × Nat)) (m : Nat) :
    covered ((a, b) :: out) m ↔ (a ≤ m ∧ m ≤ b) ∨ covered out m :=
  covered_cons (a, b) out m

/-- Invariant of the `find_anomaly_sequences` scan, proved by induction on the
remaining labels: starting at index `i` with flag `in_a` (a run open since
`s < i` when the flag is set), the closed output consists of well-formed
pairs within bounds, pairwise separated by a gap, covering exactly the
indices whose label is 1 (and, when a run is open, the indices `s..i-1`). -/
theorem faMaster (rest : List Int) :
    ∀ (i s : Nat) (in_a : Bool),
      (∀ x ∈ rest, x = 0 ∨ x = 1) → (in_a = true → s < i) →
      (∀ p ∈ faOut in_a s i rest,
          p.1 ≤ p.2 ∧ p.2 < i + rest.length
            ∧ (in_a = true → s ≤ p.1) ∧ (in_a = false → i ≤ p.1))
      ∧ (faOut in_a s i rest).Pairwise (fun p q => p.2 + 1 < q.1)
      ∧ (∀ j : Nat, ((rest[j]? = some 1) ↔ covered (faOut in_a s i rest) (i + j)))
      ∧ (in_a = true → ∀ m, s ≤ m → m < i → covered (faOut in_a s i rest) m) := by
  induction rest with
  | nil =>
    intro i s in_a h01 hsi
    cases in_a
    · simp only [faOut_nil_false]
      refine ⟨?_, List.Pairwise.nil, ?_, ?_⟩
      · intro p hp
        exact absurd hp (List.not_mem_nil p)
      · intro j
        simp [covered]
      · intro h
        exact absurd h (by simp)
    · have hs : s < i := hsi rfl
      simp only [faOut_nil_true]
      refine ⟨?_, List.pairwise_singleton _ _, ?_, ?_⟩
      · intro p hp
        rw [List.mem_singleton] at hp
        subst hp
        refine ⟨by omega, ?_, fun _ => le_refl s, fun h => absurd h (by simp)⟩
        simp only [List.length_nil]
        omega
      · intro j
        rw [covered_cons_mk]
        simp only [List.getElem?_nil]
        constructor
        · intro h
          exact absurd h (by simp)
        · rintro (⟨h1, h2⟩ | hc)
          · exact absurd h2 (by omega)
          · exact absurd hc (covered_nil _)
      · intro _ m hsm hmi
        rw [covered_cons_mk]
        exact Or.inl ⟨hsm, by omega⟩
  | cons l r ih =>
    intro i s in_a h01 hsi
    have h01r : ∀ x ∈ r, x = 0 ∨ x = 1 :=
      fun x hx => h01 x (List.mem_cons_of_mem _ hx)
    rcases h01 l (List.mem_cons_self _ _) with rfl | rfl
    · cases in_a
      · obtain ⟨ih1, ih2, ih3, ih4⟩ := ih (i + 1) s false h01r (by simp)
        simp only [faOut_cons_zero_false]
        refine ⟨?_, ih2, ?_, ?_⟩
        · intro p hp
          obtain ⟨a, b, c, d⟩ := ih1 p hp
          have hd : i + 1 ≤ p.1 := d rfl
          refine ⟨a, ?_, fun h => absurd h (by simp), fun _ => by omega⟩
          simp only [List.length_cons]
          omega
        · intro j
          cases j with
          | zero =>
            simp only [List.getElem?_cons_zero]
            constructor
            · intro h
              exact absurd h (by simp)
            · intro hc
              obtain ⟨p, hp, hp1, hp2⟩ := hc
              have hd : i + 1 ≤ p.1 := (ih1 p hp).2.2.2 rfl
              exact absurd hp1 (by omega)
          | succ j =>
            simp only [List.getElem?_cons_succ]
            have harr : i + (j + 1) = (i + 1) + j := by omega
            rw [harr]
            exact ih3 j
        · intro h
          exact absurd h (by simp)
      · have hs : s < i := hsi rfl
        obtain ⟨ih1, ih2, ih3, ih4⟩ := ih (i + 1) s false h01r (by simp)
        simp only [faOut_cons_zero_true]
        have hbound : ∀ p ∈ faOut false s (i + 1) r, i + 1 ≤ p.1 :=
          fun p hp => (ih1 p hp).2.2.2 rfl
        refine ⟨?_, ?_, ?_, ?_⟩
        · intro p hp
          rcases List.mem_cons.mp hp with rfl | hp'
          · refine ⟨by omega, ?_, fun _ => le_refl s, fun h => absurd h (by simp)⟩
            simp only [List.length_cons]
            show i - 1 < i + (r.length + 1)
            omega
          · obtain ⟨a, b, c, d⟩ := ih1 p hp'
            have hd : i + 1 ≤ p.1 := d rfl
            refine ⟨a, ?_, fun _ => by omega, fun h => absurd h (by simp)⟩
            simp only [List.length_cons]
            omega
        · rw [List.pairwise_cons]
          refine ⟨?_, ih2⟩
          intro q hq
          have hb := hbound q hq
          show (i - 1) + 1 < q.1
          omega
        · intro j
          cases j with
          | zero =>
            simp only [List.getElem?_cons_zero]
            rw [covered_cons_mk]
            constructor
            · intro h
              exact absurd h (by simp)
            · rintro (⟨h1, h2⟩ | hc)
              · exact absurd h2 (by omega)
              · obtain ⟨p, hp, hp1, hp2⟩ := hc
                have hd := hbound p hp
                exact absurd hp1 (by omega)
          | succ j =>
            simp only [List.getElem?_cons_succ]
            rw [covered_cons_mk]
            have harr : i + (j + 1) = (i + 1) + j := by omega
            rw [harr]
            constructor
            · intro h
              exact Or.inr ((ih3 j).mp h)
            · rintro (⟨h1, h2⟩ | hc)
              · exact absurd h2 (by omega)
              · exact (ih3 j).mpr hc
        · intro _ m hsm hmi
          rw [covered_cons_mk]
          exact Or.inl ⟨hsm, by omega⟩
    · cases in_a
      · obtain ⟨ih1, ih2, ih3, ih4⟩ := ih (i + 1) i true h01r (fun _ => by omega)
        simp only [faOut_cons_one_false]
        refine ⟨?_, ih2, ?_, ?_⟩
        · intro p hp
          obtain ⟨a, b, c, d⟩ := ih1 p hp
          have hc : i ≤ p.1 := c rfl
          refine ⟨a, ?_, fun h => absurd h (by simp), fun _ => hc⟩
          simp only [List.length_cons]
          omega
        · intro j
          cases j with
          | zero =>
            simp only [List.getElem?_cons_zero]
            constructor
            · intro _
              exact ih4 rfl i (le_refl i) (by omega)
            · intro _
              trivial
          | succ j =>
            simp only [List.getElem?_cons_succ]
            have harr : i + (j + 1) = (i + 1) + j := by omega
            rw [harr]
            exact ih3 j
        · intro h
          exact absurd h (by simp)
      · have hs : s < i := hsi rfl
        obtain ⟨ih1, ih2, ih3, ih4⟩ := ih (i + 1) s true h01r (fun _ => by omega)
        simp only [faOut_cons_one_true]
        refine ⟨?_, ih2, ?_, ?_⟩
        · intro p hp
          obtain ⟨a, b, c, d⟩ := ih1 p hp
          have hc : s ≤ p.1 := c rfl
          refine ⟨a, ?_, fun _ => hc, fun h => absurd h (by simp)⟩
          simp only [List.length_cons]
          omega
        · intro j
          cases j with
          | zero =>
            simp only [List.getElem?_cons_zero]
            constructor
            · intro _
              exact ih4 rfl i (by omega) (by omega)
            · intro _
              trivial
          | succ j =>
            simp only [List.getElem?_cons_succ]
            have harr : i + (j + 1) = (i + 1) + j := by omega
            rw [harr]
            exact ih3 j
        · intro _ m hsm hmi
          exact ih4 rfl m hsm (by omega)

/-- C9: for labels over {0, 1}, `find_anomaly_sequences` returns exactly the
maximal contiguous runs of 1s as inclusive [start, end] pairs: each pair has
start ≤ end and ends before the list length (so a run reaching the end is
closed at length - 1), the pairs come in increasing start order separated by
at least one index (which by the coverage property carries label 0, making
each run maximal), and an index carries label 1 iff some returned pair covers
it. -/
theorem c9_find_anomaly_sequences (labels : List Int)
    (h01 : ∀ x ∈ labels, x = 0 ∨ x = 1) :
    (∀ p ∈ find_anomaly_sequences labels, p.1 ≤ p.2 ∧ p.2 < labels.length)
    ∧ (find_anomaly_sequences labels).Pairwise
        (fun p q => p.1 < q.1 ∧ p.2 + 1 < q.1)
    ∧ (∀ j : Nat,
        (labels[j]? = some 1 ↔ covered (find_anomaly_sequences labels) j)) := by
  have hfind : find_anomaly_sequences labels = faOut false 0 0 labels := by
    unfold find_anomaly_sequences faOut
    rw [Nat.zero_add]
  obtain ⟨h1, h2, h3, _⟩ := faMaster labels 0 0 false h01 (by simp)
  refine ⟨?_, ?_, ?_⟩
  · intro p hp
    rw [hfind] at hp
    obtain ⟨a, b, _, _⟩ := h1 p hp
    exact ⟨a, by omega⟩
  · rw [hfind]
    refine List.Pairwise.imp_of_mem ?_ h2
    intro a b ha hb hab
    have haa := (h1 a ha).1
    exact ⟨by omega, hab⟩
  · intro j
    rw [hfind]
    have h := h3 j
    rw [Nat.zero_add] at h
    exact h

/-- C9 witness: the labels [1, 1, 0, 1] yield the runs [(0, 1), (3, 3)],
with the final run closed at the last index. -/
theorem c9_find_anomaly_sequences_witness :
    (∀ x ∈ [(1 : Int), 1, 0, 1], x = 0 ∨ x = 1)
    ∧ ((∀ p ∈ find_anomaly_sequences [1, 1, 0, 1],
          p.1 ≤ p.2 ∧ p.2 < ([(1 : Int), 1, 0, 1]).length)
      ∧ (find_anomaly_sequences [1, 1, 0, 1]).Pairwise
          (fun p q => p.1 < q.1 ∧ p.2 + 1 < q.1)
      ∧ (∀ j : Nat,
          (([(1 : Int), 1, 0, 1])[j]? = some 1
            ↔ covered (find_anomaly_sequences [1, 1, 0, 1]) j))) :=
  ⟨by decide, c9_find_anomaly_sequences [1, 1, 0, 1] (by decide)⟩

/-- C10: for a sequence [start, end] with 0 ≤ start ≤ end and horizon h ≥ 0,
`create_predictive_labels` emits exactly the shifted sequence
[max 0 (start - h), max 0 (end - h)], and emits it iff
max 0 (end - h) > 0 and max 0 (start - h) < num_values; the shifted bounds
still satisfy 0 ≤ new_start ≤ new_end. -/
theorem c10_create_predictive_labels (h nv start endv : Int)
    (hh : 0 ≤ h) (hs : 0 ≤ start) (hse : start ≤ endv) :
    (create_predictive_labels h nv [(start, endv)]
      = if 0 < max 0 (endv - h) ∧ max 0 (start - h) < nv
        then [(max 0 (start - h), max 0 (endv - h))] else [])
    ∧ 0 ≤ max 0 (start - h) ∧ max 0 (start - h) ≤ max 0 (endv - h) := by
  refine ⟨?_, le_max_left _ _, max_le_max (le_refl 0) (by omega)⟩
  simp only [create_predictive_labels, List.foldl_cons, List.foldl_nil]
  rfl

/-- C10 witness: horizon 100 over [50, 120] with 500 values emits [0, 20]. -/
theorem c10_create_predictive_labels_witness :
    ((0 : Int) ≤ 100 ∧ (0 : Int) ≤ 50 ∧ (50 : Int) ≤ 120)
    ∧ ((create_predictive_labels 100 500 [(50, 120)]
        = if 0 < max 0 ((120 : Int) - 100) ∧ max 0 ((50 : Int) - 100) < 500
          then [(max 0 ((50 : Int) - 100), max 0 ((120 : Int) - 100))] else [])
      ∧ (0 : Int) ≤ max 0 ((50 : Int) - 100)
      ∧ max 0 ((50 : Int) - 100) ≤ max 0 ((120 : Int) - 100)) :=
  ⟨by norm_num,
    c10_create_predictive_labels 100 500 50 120 (by norm_num) (by norm_num)
      (by norm_num)⟩
